import Mathlib

/-!
Shallow embedding of the rich-text layout and rendering engine found in
src/renderer/textRenderer/textRenderer.ts, together with spec-side
definitions used to state and check the documented properties.

Numbers (coordinates, widths, heights, font sizes) are modelled as
rationals; JavaScript arithmetic on these quantities is ordinary field
arithmetic at the precision relevant to the claims.
-/

namespace DDDG

/-- Text style record (`ITextStyle` in the source).  The `id` field models
JavaScript object identity: each allocation yields a value with a distinct
id, so equality of whole records including `id` corresponds to reference
equality of style objects. -/
structure ITextStyle where
  fontName : String
  fontSize : ℚ
  isBold : Bool
  isUnderlined : Bool
  isStrikethrough : Bool
  isItalic : Bool
  color : String
  strokeWidth : ℚ
  strokeColor : String
  letterSpacing : ℚ
  lineSpacing : ℚ
  alpha : ℚ
  id : Nat
  deriving DecidableEq

/-- The tag distinguishing the two render-item variants
(`IDrawCharacterItem` / `INewlineItem`), with the character payload. -/
inductive RenderKind where
  | character (character : Char) (style : ITextStyle)
  | newline
  deriving DecidableEq

/-- A render item (`ITextRenderItem` plus its variant payload). -/
structure RenderItem where
  x : ℚ
  y : ℚ
  height : ℚ
  width : ℚ
  kind : RenderKind
  deriving DecidableEq

/-- A command-open token (`ICommandToken` from the tokenizer interface). -/
structure ICommandToken where
  commandName : String
  argument : String
  pos : Nat
  deriving DecidableEq

/-- Tokens produced by the tokenizer (`Token` from the tokenizer
interface): a plain-text run, a newline, a command open, a command close. -/
inductive Token where
  | text (content : String)
  | newline
  | command (tok : ICommandToken)
  | commandClose (commandName : String) (pos : Nat)
  deriving DecidableEq

/-- The errors thrown by `getRenderParts` (the three `throw new Error`
sites), carrying the data interpolated into the message strings. -/
inductive RenderError where
  | unknownCommand (name : String) (pos : Nat)
  | unmatchedClose (name : String) (pos : Nat)
  | mismatchedClose (closedName : String) (pos : Nat) (openName : String) (openPos : Nat)
  deriving DecidableEq

/-- The command registry (`TextRenderer.textCommands`): a map from command
name to a style transform taking the current style and the argument.
Modelled as a function to `Option` (`has`/`get` on the JS `Map`); the
registry module itself is external to the reviewed file. -/
abbrev Registry := String → Option (ITextStyle → String → ITextStyle)

/-- The mutable local state of one `getRenderParts` pass: the accumulated
items, the two parallel stacks, the current style, open tag and cached
style height. -/
structure InterpState where
  renderParts : List RenderItem
  styleStack : List ITextStyle
  tagStack : List (Option ICommandToken)
  currentStyle : ITextStyle
  currentTag : Option ICommandToken
  currentStyleHeight : ℚ
  deriving DecidableEq

/-- One step of `getRenderParts`: the `switch` over a single token.
Stacks are lists with the top at the head (JS `push`/`pop` at the array
end).  Popping an empty stack cannot occur in a run started from
`initState` (stack depth always equals the number of open tags, and a pop
is guarded by `currentTag` being set); the `headD`/`tail` defaults cover
the unreachable case. -/
def interpStep (cmds : Registry) (mW : ITextStyle → Char → ℚ)
    (mH : ITextStyle → ℚ) (s : InterpState) : Token → Except RenderError InterpState
  | Token.command tok =>
    match cmds tok.commandName with
    | some f =>
      let newStyle := f s.currentStyle tok.argument
      Except.ok { s with
        styleStack := s.currentStyle :: s.styleStack
        tagStack := s.currentTag :: s.tagStack
        currentStyle := newStyle
        currentStyleHeight := mH newStyle
        currentTag := some tok }
    | none => Except.error (RenderError.unknownCommand tok.commandName tok.pos)
  | Token.commandClose name pos =>
    match s.currentTag with
    | none => Except.error (RenderError.unmatchedClose name pos)
    | some t =>
      if name = t.commandName then
        Except.ok { s with
          currentTag := s.tagStack.headD none
          tagStack := s.tagStack.tail
          currentStyle := s.styleStack.headD s.currentStyle
          styleStack := s.styleStack.tail }
      else
        Except.error (RenderError.mismatchedClose name pos t.commandName t.pos)
  | Token.newline =>
    Except.ok { s with
      renderParts := s.renderParts ++
        [{ x := 0, y := 0, height := s.currentStyleHeight, width := 0,
           kind := RenderKind.newline }] }
  | Token.text content =>
    Except.ok { s with
      renderParts := s.renderParts ++ content.data.map (fun c =>
        { x := 0, y := 0, height := s.currentStyleHeight,
          width := mW s.currentStyle c,
          kind := RenderKind.character c s.currentStyle }) }

/-- The token loop of `getRenderParts`, threading the state. -/
def runTokens (cmds : Registry) (mW : ITextStyle → Char → ℚ)
    (mH : ITextStyle → ℚ) : List Token → InterpState → Except RenderError InterpState
  | [], s => Except.ok s
  | t :: ts, s =>
    match interpStep cmds mW mH s t with
    | Except.ok s1 => runTokens cmds mW mH ts s1
    | Except.error e => Except.error e

/-- The initial interpreter state: empty item list and stacks, base style
current, no open tag, style height measured for the base style. -/
def initState (mH : ITextStyle → ℚ) (baseStyle : ITextStyle) : InterpState :=
  { renderParts := []
    styleStack := []
    tagStack := []
    currentStyle := baseStyle
    currentTag := none
    currentStyleHeight := mH baseStyle }

/-- `TextRenderer.getRenderParts`: run the token loop from the initial
state and return the accumulated render items (or the thrown error). -/
def getRenderParts (cmds : Registry) (mW : ITextStyle → Char → ℚ)
    (mH : ITextStyle → ℚ) (tokens : List Token) (baseStyle : ITextStyle) :
    Except RenderError (List RenderItem) :=
  Except.map (fun s => s.renderParts) (runTokens cmds mW mH tokens (initState mH baseStyle))

/-- Alignment mode of `fixAlignment`. -/
inductive Alignment where
  | left
  | center
  | right
  deriving DecidableEq

/-- The starting x of a line in `fixLine`: `xStart` by default, overridden
for center and right alignment. -/
def startX (a : Alignment) (xStart xEnd lineWidth : ℚ) : ℚ :=
  match a with
  | Alignment.left => xStart
  | Alignment.center => xStart + (xEnd - xStart) / 2 - lineWidth / 2
  | Alignment.right => xEnd - lineWidth

/-- The cursor loop of `fixLine`: assign `item.x = x` and advance the
cursor by `item.width`. -/
def setX : ℚ → List RenderItem → List RenderItem
  | _, [] => []
  | x, p :: rest => { p with x := x } :: setX (x + p.width) rest

/-- `fixLine` inside `fixAlignment`: resolve the buffered line to final x
coordinates. -/
def fixLine (a : Alignment) (xStart xEnd lineWidth : ℚ)
    (currentLine : List RenderItem) : List RenderItem :=
  setX (startX a xStart xEnd lineWidth) currentLine

/-- First pass of `fixAlignment`: the running `lineHeight` maximum (note:
never reset between lines), pushed at each newline, plus a trailing push
after the loop. -/
def computeLHAux (h : ℚ) : List RenderItem → List ℚ
  | [] => [h]
  | p :: rest =>
    let h1 := max h p.height
    match p.kind with
    | RenderKind.newline => h1 :: computeLHAux h1 rest
    | RenderKind.character _ _ => computeLHAux h1 rest

/-- The `lineHeights` array of `fixAlignment` (first pass, starting from
`lineHeight = 0`). -/
def computeLineHeights (parts : List RenderItem) : List ℚ :=
  computeLHAux 0 parts

/-- Second pass of `fixAlignment`: assign `y`, accumulate the line buffer
and width (adding each character's own letter-spacing to the item just
pushed, which is the character itself), flush through `fixLine` at each
newline advancing `y` by `lineHeights[line + 1] || 0`, and flush the
trailing line at the end. -/
def alignPass (a : Alignment) (xStart xEnd : ℚ) (lineHeights : List ℚ) :
    List RenderItem → ℚ → ℚ → ℚ → List RenderItem → Nat → List RenderItem
  | [], _, lw, _, cur, _ => fixLine a xStart xEnd lw cur
  | p :: rest, y, lw, lh, cur, line =>
    let lh1 := max lh p.height
    let p1 := { p with y := y }
    match p1.kind with
    | RenderKind.newline =>
      fixLine a xStart xEnd (lw + p1.width) (cur ++ [p1]) ++
        alignPass a xStart xEnd lineHeights rest
          (y + (lineHeights.getD (line + 1) 0)) 0 0 [] (line + 1)
    | RenderKind.character _ st =>
      let p2 := { p1 with width := p1.width + st.letterSpacing }
      alignPass a xStart xEnd lineHeights rest y
        (lw + p1.width + st.letterSpacing) lh1 (cur ++ [p2]) line

/-- `TextRenderer.fixAlignment`: two passes over the render items. -/
def fixAlignment (a : Alignment) (xStart xEnd yStart : ℚ)
    (parts : List RenderItem) : List RenderItem :=
  alignPass a xStart xEnd (computeLineHeights parts) parts yStart 0 0 [] 0

/-- The quotation-mark character inserted by `quote` (the literal
double-quote, code point 34). -/
def quoteChar : Char := Char.ofNat 34

/-- JavaScript regular-expression whitespace, as matched by
`character.match` against the whitespace class in `quote`. -/
def isJsWhitespace (c : Char) : Bool :=
  let n := c.toNat
  (9 ≤ n && n ≤ 13) || n == 32 || n == 160 || n == 5760 ||
    (8192 ≤ n && n ≤ 8202) || n == 8232 || n == 8233 || n == 8239 ||
    n == 8287 || n == 12288 || n == 65279

/-- A non-whitespace character item: the items `quote` reacts to. -/
def isVisible (p : RenderItem) : Bool :=
  match p.kind with
  | RenderKind.character c _ => !isJsWhitespace c
  | RenderKind.newline => false

/-- The quotation-mark item `quote` builds next to a neighbour item of
style `st` and height `h`, with a freshly measured width. -/
def mkQuoteItem (mW : ITextStyle → Char → ℚ) (st : ITextStyle) (h : ℚ) : RenderItem :=
  { x := 0, y := 0, height := h, width := mW st quoteChar,
    kind := RenderKind.character quoteChar st }

/-- The style stored on an item, for reading `part.style` off the item at
`lastChar` (always a character item when reached; the default covers the
newline variant, unreachable there). -/
def styleOfItem (dflt : ITextStyle) (p : RenderItem) : ITextStyle :=
  match p.kind with
  | RenderKind.character _ st => st
  | RenderKind.newline => dflt

/-- A default style record, used only as the unreachable fallback of
`styleOfItem`. -/
def defaultStyle : ITextStyle :=
  { fontName := "", fontSize := 0, isBold := false, isUnderlined := false,
    isStrikethrough := false, isItalic := false, color := "",
    strokeWidth := 0, strokeColor := "", letterSpacing := 0,
    lineSpacing := 0, alpha := 0, id := 0 }

/-- JavaScript `splice(n, 0, a)`: insert `a` at index `n` (appending when
`n` is past the end). -/
def spliceInsert (n : Nat) (a : RenderItem) (l : List RenderItem) : List RenderItem :=
  match n, l with
  | 0, l => a :: l
  | _ + 1, [] => [a]
  | n + 1, x :: xs => x :: spliceInsert n a xs

/-- The index-based loop of `TextRenderer.quote`, as a zipper over
(processed, remaining) items.  Skips non-characters and whitespace,
records `lastChar` as the current index, and on the first non-whitespace
character splices a quote item in front of it (the loop then revisits that
same character at the next index, exactly as the JS `splice` + `++i`
does). -/
def quoteLoop (mW : ITextStyle → Char → ℚ) (acc : List RenderItem)
    (rest : List RenderItem) (lastChar : Int) (quoted : Bool) :
    List RenderItem × Int × Bool :=
  match rest with
  | [] => (acc, lastChar, quoted)
  | p :: rs =>
    match p.kind with
    | RenderKind.newline => quoteLoop mW (acc ++ [p]) rs lastChar quoted
    | RenderKind.character c st =>
      if isJsWhitespace c then
        quoteLoop mW (acc ++ [p]) rs lastChar quoted
      else if quoted then
        quoteLoop mW (acc ++ [p]) rs (acc.length : Int) true
      else
        quoteLoop mW (acc ++ [mkQuoteItem mW st p.height]) (p :: rs)
          (acc.length : Int) true
  termination_by (rest.length, if quoted then 0 else 1)
  decreasing_by
  all_goals simp_all [Prod.lex_iff]

/-- `TextRenderer.quote`: run the loop, then if anything was quoted insert
a closing quote right after the last non-whitespace character, copying its
style and height. -/
def quote (mW : ITextStyle → Char → ℚ) (parts : List RenderItem) : List RenderItem :=
  let r := quoteLoop mW [] parts (-1) false
  let ps := r.1
  let lastChar := r.2.1
  let quoted := r.2.2
  if quoted && decide (0 ≤ lastChar) then
    match ps.get? lastChar.toNat with
    | some part =>
      spliceInsert (lastChar.toNat + 1)
        (mkQuoteItem mW (styleOfItem defaultStyle part) part.height) ps
    | none => ps
  else ps

/-- The draw and state calls `render` issues against the canvas context,
in order: style (re)application, stroke, and fill. -/
inductive DrawCall where
  | applyStyle (style : ITextStyle)
  | strokeText (character : Char) (x y : ℚ)
  | fillText (character : Char) (x y : ℚ)
  deriving DecidableEq

/-- The stroke condition of `render`: `strokeWidth > 0 && strokeColor > ''`
(lexicographically above the empty string, i.e. non-empty). -/
def strokeEligible (st : ITextStyle) : Bool :=
  decide (0 < st.strokeWidth) && decide (st.strokeColor ≠ "")

/-- First loop of `render`: skip newlines, re-apply the style when it
differs from the last applied one, stroke when the stroke condition holds.
Returns the emitted calls and the final `currentStyle`. -/
def strokePass (cur : Option ITextStyle) :
    List RenderItem → List DrawCall × Option ITextStyle
  | [] => ([], cur)
  | p :: rest =>
    match p.kind with
    | RenderKind.newline => strokePass cur rest
    | RenderKind.character c st =>
      let applied := if some st = cur then ([] : List DrawCall) else [DrawCall.applyStyle st]
      let cur1 := some st
      let calls := if strokeEligible st then [DrawCall.strokeText c p.x p.y] else []
      let r := strokePass cur1 rest
      (applied ++ calls ++ r.1, r.2)

/-- Second loop of `render`: skip newlines, re-apply the style when it
changed, fill every character. -/
def fillPass (cur : Option ITextStyle) :
    List RenderItem → List DrawCall × Option ITextStyle
  | [] => ([], cur)
  | p :: rest =>
    match p.kind with
    | RenderKind.newline => fillPass cur rest
    | RenderKind.character c st =>
      let applied := if some st = cur then ([] : List DrawCall) else [DrawCall.applyStyle st]
      let cur1 := some st
      let r := fillPass cur1 rest
      (applied ++ DrawCall.fillText c p.x p.y :: r.1, r.2)

/-- `TextRenderer.render` as the trace of calls it issues: the stroke loop
(starting from `currentStyle = null`) followed by the fill loop, which
inherits the `currentStyle` left by the stroke loop. -/
def render (parts : List RenderItem) : List DrawCall :=
  let r1 := strokePass none parts
  let r2 := fillPass r1.2 parts
  r1.1 ++ r2.1

/-- The height-cache key of `measureHeight`:
`textStyle.fontSize + ' ' + textStyle.fontName`. -/
def fontKey (st : ITextStyle) : String :=
  toString st.fontSize ++ " " ++ st.fontName

/-- `measureHeight` with the `heightCache` passed explicitly (an
association list standing for the JS `Map`) and the DOM measurement
modelled by `primitive` (a function of the configured font size and
family).  Returns the height, the updated cache, and whether the
measurement primitive was invoked. -/
def measureHeightC (primitive : ℚ → String → ℚ)
    (cache : List (String × ℚ)) (st : ITextStyle) :
    ℚ × List (String × ℚ) × Bool :=
  let font := fontKey st
  match cache.lookup font with
  | some h => (h * st.lineSpacing, cache, false)
  | none =>
    let h := primitive st.fontSize st.fontName
    (h * st.lineSpacing, (font, h) :: cache, true)

/-! ## Spec-side definitions -/

/-- Spec-side shape of one token: the characters it contributes (`some c`
per text character, `none` per newline, nothing for command tokens). -/
def tokenShape : Token → List (Option Char)
  | Token.text s => s.data.map some
  | Token.newline => [none]
  | Token.command _ => []
  | Token.commandClose _ _ => []

/-- Spec-side shape of one render item: its character, or `none` for a
newline sentinel. -/
def itemShape (p : RenderItem) : Option Char :=
  match p.kind with
  | RenderKind.character c _ => some c
  | RenderKind.newline => none

/-- Well-formed markup at the token level: command tags are balanced
(strict LIFO nesting) and every command name is registered in `cmds`. -/
inductive Balanced (cmds : Registry) : List Token → Prop
  | nil : Balanced cmds []
  | text (s : String) (rest : List Token) :
      Balanced cmds rest → Balanced cmds (Token.text s :: rest)
  | newline (rest : List Token) :
      Balanced cmds rest → Balanced cmds (Token.newline :: rest)
  | wrap (tok : ICommandToken) (pos2 : Nat) (inner rest : List Token)
      (f : ITextStyle → String → ITextStyle) :
      cmds tok.commandName = some f →
      Balanced cmds inner → Balanced cmds rest →
      Balanced cmds
        (Token.command tok :: (inner ++ Token.commandClose tok.commandName pos2 :: rest))

/-- The error `getRenderParts` raises when a close token arrives in state
`s`: unmatched when no tag is open, otherwise mismatched against the
innermost open tag. -/
def closeError (s : InterpState) (name : String) (pos : Nat) : RenderError :=
  match s.currentTag with
  | none => RenderError.unmatchedClose name pos
  | some t => RenderError.mismatchedClose name pos t.commandName t.pos

/-- Spec-side: the render items split into lines, a line being the run of
items up to and including its terminating newline, plus a trailing
(possibly empty) line. -/
def splitLines : List RenderItem → List (List RenderItem)
  | [] => [[]]
  | p :: rest =>
    match p.kind with
    | RenderKind.newline => [p] :: splitLines rest
    | RenderKind.character _ _ =>
      match splitLines rest with
      | [] => [[p]]
      | l :: ls => (p :: l) :: ls

/-- Spec-side: maximum item height of a list of items (0 when empty). -/
def maxHeight (l : List RenderItem) : ℚ :=
  l.foldl (fun a p => max a p.height) 0

/-- Spec-side: the height recorded for line `k` — the maximum item height
over all items of lines `0..k` (a running prefix maximum, not a per-line
maximum). -/
def prefixLineHeights (parts : List RenderItem) : List ℚ :=
  (List.range (splitLines parts).length).map
    (fun k => maxHeight (((splitLines parts).take (k + 1)).flatten))

/-- Spec-side: the per-line y coordinates produced by starting at `y` and
advancing, after each line, by the NEXT entry of `hs` (the increments
list). -/
def cumYs (y : ℚ) : List ℚ → List ℚ
  | [] => [y]
  | h :: hs => y :: cumYs (y + h) hs

/-- Spec-side: the expected `y` of every item, line by line. -/
def specYList (yStart : ℚ) (parts : List RenderItem) : List ℚ :=
  ((splitLines parts).zip (cumYs yStart ((prefixLineHeights parts).drop 1))).flatMap
    (fun pr => pr.1.map (fun _ => pr.2))

/-- Spec-side: the width an item carries after alignment — its own width,
plus its own style's letter-spacing when it is a character. -/
def adjWidth (p : RenderItem) : ℚ :=
  match p.kind with
  | RenderKind.character _ st => p.width + st.letterSpacing
  | RenderKind.newline => p.width

/-- Spec-side: the x coordinates of a cursor starting at `x0` and
advancing by each width in turn. -/
def cursorXs (x0 : ℚ) : List ℚ → List ℚ
  | [] => []
  | w :: ws => x0 :: cursorXs (x0 + w) ws

/-- Intermediate: the per-item y values of the second alignment pass,
parameterised by the remaining line-height increments `hs`. -/
def ySpecFrom (y : ℚ) (hs : List ℚ) : List RenderItem → List ℚ
  | [] => []
  | p :: rest =>
    match p.kind with
    | RenderKind.newline => y :: ySpecFrom (y + hs.headD 0) hs.tail rest
    | RenderKind.character _ _ => y :: ySpecFrom y hs rest

/-- Intermediate: the same y values, organised line by line. -/
def ySpecLines (y : ℚ) (hs : List ℚ) : List (List RenderItem) → List ℚ
  | [] => []
  | l :: ls => l.map (fun _ => y) ++ ySpecLines (y + hs.headD 0) hs.tail ls

/-- Intermediate: the recorded line heights as a running fold carried
across lines (mirroring the non-resetting first pass, organised line by
line). -/
def sLH (m : ℚ) : List (List RenderItem) → List ℚ
  | [] => []
  | l :: ls =>
    (l.foldl (fun a p => max a p.height) m) ::
      sLH (l.foldl (fun a p => max a p.height) m) ls

/-- The letter-spacing an item contributes (its style's letter-spacing for
a character, 0 for a newline). -/
def itemLS (p : RenderItem) : ℚ :=
  match p.kind with
  | RenderKind.character _ st => st.letterSpacing
  | RenderKind.newline => 0

/-- Spec-side: index of the first non-whitespace character item. -/
def firstVisibleIdx : List RenderItem → Option Nat
  | [] => none
  | p :: rest =>
    if isVisible p then some 0 else (firstVisibleIdx rest).map (fun n => n + 1)

/-- Spec-side: index of the last non-whitespace character item. -/
def lastVisibleIdx : List RenderItem → Option Nat
  | [] => none
  | p :: rest =>
    match lastVisibleIdx rest with
    | some k => some (k + 1)
    | none => if isVisible p then some 0 else none

/-- Spec-side: the final `lastChar` of the quote loop once quoting has
happened — the index (relative to `base`, the items already emitted) of
the last non-whitespace character remaining, or the incoming value when
none remains. -/
def lastSpec (base : Nat) (l : Int) (rest : List RenderItem) : Int :=
  match lastVisibleIdx rest with
  | some k => ((base + k : Nat) : Int)
  | none => l

/-- A default render item, used as the (never taken) fallback of indexed
reads in spec-side formulas. -/
def defaultItem : RenderItem :=
  { x := 0, y := 0, height := 0, width := 0, kind := RenderKind.newline }

/-- Modelled from the spec: the documented effect of `quote` — unchanged
when no non-whitespace character exists; otherwise a quote item (styled
and sized like the first non-whitespace character) immediately before that
character, and a quote item (styled and sized like the last non-whitespace
character) immediately after it. -/
def quoteSpec (mW : ITextStyle → Char → ℚ) (parts : List RenderItem) : List RenderItem :=
  match firstVisibleIdx parts, lastVisibleIdx parts with
  | some i, some j =>
    let pi0 := (parts.get? i).getD defaultItem
    let pj0 := (parts.get? j).getD defaultItem
    parts.take i ++
      [mkQuoteItem mW (styleOfItem defaultStyle pi0) pi0.height] ++
      ((parts.drop i).take (j + 1 - i)) ++
      [mkQuoteItem mW (styleOfItem defaultStyle pj0) pj0.height] ++
      parts.drop (j + 1)
  | _, _ => parts

/-- Projection of a fill call. -/
def fillOf : DrawCall → Option (Char × ℚ × ℚ)
  | DrawCall.fillText c x y => some (c, x, y)
  | _ => none

/-- Projection of a stroke call. -/
def strokeOf : DrawCall → Option (Char × ℚ × ℚ)
  | DrawCall.strokeText c x y => some (c, x, y)
  | _ => none

/-- Spec-side: the character items of a render-item list (character with
its position). -/
def charsOf (parts : List RenderItem) : List (Char × ℚ × ℚ) :=
  parts.filterMap (fun p =>
    match p.kind with
    | RenderKind.character c _ => some (c, p.x, p.y)
    | RenderKind.newline => none)

/-- Spec-side: the character items whose style satisfies the stroke
condition. -/
def strokeCharsOf (parts : List RenderItem) : List (Char × ℚ × ℚ) :=
  parts.filterMap (fun p =>
    match p.kind with
    | RenderKind.character c st =>
      if strokeEligible st then some (c, p.x, p.y) else none
    | RenderKind.newline => none)

/-! ## Concrete sample data for witnesses and counterexamples -/

/-- A concrete base style. -/
def sampleStyle : ITextStyle :=
  { fontName := "aller", fontSize := 20, isBold := false, isUnderlined := false,
    isStrikethrough := false, isItalic := false, color := "#ffffff",
    strokeWidth := 4, strokeColor := "#523140", letterSpacing := 0,
    lineSpacing := 6/5, alpha := 1, id := 0 }

/-- A registry with two commands, `b` (bold) and `a` (alpha); each
transform returns a fresh instance (new id), as the command contract
requires. -/
def sampleCmds : Registry := fun n =>
  if n = "b" then some (fun s _ => { s with isBold := true, id := s.id + 1 })
  else if n = "a" then some (fun s _ => { s with alpha := 1/2, id := s.id + 2 })
  else none

/-- A concrete width metric. -/
def sampleMW : ITextStyle → Char → ℚ := fun _ _ => 7

/-- A concrete height metric. -/
def sampleMH : ITextStyle → ℚ := fun st => st.fontSize

/-- A concrete character item builder for layout examples: width `w`,
height `h`, letter-spacing taken from the style. -/
def mkChar (c : Char) (st : ITextStyle) (w h : ℚ) : RenderItem :=
  { x := 0, y := 0, height := h, width := w, kind := RenderKind.character c st }

/-- A concrete newline item of height `h`. -/
def mkNl (h : ℚ) : RenderItem :=
  { x := 0, y := 0, height := h, width := 0, kind := RenderKind.newline }

/-- A concrete style with non-zero letter-spacing. -/
def lsStyle : ITextStyle := { sampleStyle with letterSpacing := 5 }

/-- Three concrete character items of width 10 for the alignment
examples. -/
def c7parts : List RenderItem :=
  [mkChar 'a' sampleStyle 10 20, mkChar 'b' sampleStyle 10 20,
   mkChar 'c' sampleStyle 10 20]

/-- Two lines of differing heights for the line-height analysis: a short
line (height 10) followed by a taller character (height 30). -/
def c3parts : List RenderItem :=
  [mkChar 'a' sampleStyle 10 10, mkNl 10, mkChar 'b' sampleStyle 10 30]

/-- A style agreeing with `sampleStyle` on fontSize and fontName but
differing in line-spacing, bold, italic, stroke and identity. -/
def c8OtherStyle : ITextStyle :=
  { fontName := "aller", fontSize := 20, isBold := true, isUnderlined := false,
    isStrikethrough := false, isItalic := true, color := "#ffffff",
    strokeWidth := 0, strokeColor := "", letterSpacing := 0,
    lineSpacing := 3, alpha := 1, id := 9 }

/-- C1 packaged observation: on success, the item shapes and the flag that
every item still has x = y = 0; `none` on error. -/
def okC1 (r : Except RenderError (List RenderItem)) :
    Option (List (Option Char) × Bool) :=
  match r with
  | Except.ok parts =>
    some (parts.map itemShape, parts.all (fun p => p.x == 0 && p.y == 0))
  | Except.error _ => none

/-- The post-state of an interpretation run, `none` on error. -/
def postState (r : Except RenderError InterpState) : Option InterpState :=
  match r with
  | Except.ok s => some s
  | Except.error _ => none

/-- The style carried by an item, `none` for a newline sentinel. -/
def itemStyle (p : RenderItem) : Option ITextStyle :=
  match p.kind with
  | RenderKind.character _ st => some st
  | RenderKind.newline => none

/-! ## Interpreter lemmas -/

theorem runTokens_append (cmds : Registry) (mW : ITextStyle → Char → ℚ)
    (mH : ITextStyle → ℚ) (l1 l2 : List Token) (s : InterpState) :
    runTokens cmds mW mH (l1 ++ l2) s =
      Except.bind (runTokens cmds mW mH l1 s) (runTokens cmds mW mH l2) := by
  induction l1 generalizing s with
  | nil => rfl
  | cons t ts ih =>
    simp only [List.cons_append, runTokens]
    cases interpStep cmds mW mH s t with
    | ok s1 => exact ih s1
    | error e => rfl

/-- Running a balanced token segment from any state succeeds, restores the
current style (by identity), the current tag and both stacks, appends one
item per character or newline in order (each with x = y = 0), and leaves
some cached style height. -/
theorem runTokens_balanced (cmds : Registry) (mW : ITextStyle → Char → ℚ)
    (mH : ITextStyle → ℚ) (toks : List Token) (hb : Balanced cmds toks) :
    ∀ rp ss ts cs ct ch, ∃ items h2,
      runTokens cmds mW mH toks ⟨rp, ss, ts, cs, ct, ch⟩ =
        Except.ok ⟨rp ++ items, ss, ts, cs, ct, h2⟩ ∧
      items.map itemShape = toks.flatMap tokenShape ∧
      ∀ p ∈ items, p.x = 0 ∧ p.y = 0 := by
  induction hb with
  | nil =>
    intro rp ss ts cs ct ch
    exact ⟨[], ch, by simp [runTokens], by simp, by simp⟩
  | text str rest _ ih =>
    intro rp ss ts cs ct ch
    obtain ⟨items, h2, heq, hshape, hxy⟩ :=
      ih (rp ++ str.data.map (fun c => mkChar c cs (mW cs c) ch)) ss ts cs ct ch
    refine ⟨str.data.map (fun c => mkChar c cs (mW cs c) ch) ++ items, h2, ?_, ?_, ?_⟩
    · simp only [runTokens, interpStep]
      exact heq.trans (by simp [List.append_assoc])
    · simp [hshape, tokenShape, itemShape, mkChar, List.map_map, Function.comp]
    · intro p hp
      rcases List.mem_append.mp hp with h | h
      · obtain ⟨c, _, rfl⟩ := List.mem_map.mp h
        exact ⟨rfl, rfl⟩
      · exact hxy p h
  | newline rest _ ih =>
    intro rp ss ts cs ct ch
    obtain ⟨items, h2, heq, hshape, hxy⟩ :=
      ih (rp ++ [mkNl ch]) ss ts cs ct ch
    refine ⟨mkNl ch :: items, h2, ?_, ?_, ?_⟩
    · simp only [runTokens, interpStep]
      exact heq.trans (by simp [List.append_assoc])
    · simp [hshape, tokenShape, itemShape, mkNl]
    · intro p hp
      rcases List.mem_cons.mp hp with h | h
      · subst h; exact ⟨rfl, rfl⟩
      · exact hxy p h
  | wrap tok pos2 inner rest f hf _ _ ihinner ihrest =>
    intro rp ss ts cs ct ch
    obtain ⟨items1, h1, heq1, hshape1, hxy1⟩ :=
      ihinner rp (cs :: ss) (ct :: ts) (f cs tok.argument) (some tok)
        (mH (f cs tok.argument))
    obtain ⟨items2, h2, heq2, hshape2, hxy2⟩ :=
      ihrest (rp ++ items1) ss ts cs ct h1
    refine ⟨items1 ++ items2, h2, ?_, ?_, ?_⟩
    · simp only [runTokens, interpStep, hf]
      rw [runTokens_append, heq1]
      show runTokens cmds mW mH (Token.commandClose tok.commandName pos2 :: rest) _ = _
      simp only [runTokens, interpStep]
      rw [if_pos trivial]
      exact heq2.trans (by simp [List.append_assoc])
    · simp [hshape1, hshape2, tokenShape]
    · intro p hp
      rcases List.mem_append.mp hp with h | h
      · exact hxy1 p h
      · exact hxy2 p h

/-- C1: for every token sequence whose command tags are balanced and use
only registered command names, interpretation succeeds and produces
exactly one character item per non-newline character of the text runs, in
document order, plus one newline item per newline token, with no
reordering, and every item is created with x = 0 and y = 0. -/
theorem spec_c1 (cmds : Registry) (mW : ITextStyle → Char → ℚ)
    (mH : ITextStyle → ℚ) (toks : List Token) (base : ITextStyle)
    (hb : Balanced cmds toks) :
    okC1 (getRenderParts cmds mW mH toks base) =
      some (toks.flatMap tokenShape, true) := by
  obtain ⟨items, h2, heq, hshape, hxy⟩ :=
    runTokens_balanced cmds mW mH toks hb [] [] [] base none (mH base)
  simp only [getRenderParts, initState, heq, Except.map, okC1, List.nil_append,
    Option.some.injEq, Prod.mk.injEq]
  refine ⟨hshape, ?_⟩
  simp only [List.all_eq_true]
  intro p hp
  obtain ⟨hx, hy⟩ := hxy p hp
  simp [hx, hy]

/-- A concrete balanced token list: `He`, then `l` inside a `b` command,
then a newline. -/
def sampleTokens : List Token :=
  [Token.text "He", Token.command { commandName := "b", argument := "", pos := 2 },
   Token.text "l", Token.commandClose "b" 5, Token.newline]

theorem spec_c1_witness :
    okC1 (getRenderParts sampleCmds sampleMW sampleMH sampleTokens sampleStyle) =
      some ([some 'H', some 'e', some 'l', none], true) :=
  spec_c1 sampleCmds sampleMW sampleMH sampleTokens sampleStyle
    (Balanced.text "He" _
      (Balanced.wrap { commandName := "b", argument := "", pos := 2 } 5
        [Token.text "l"] [Token.newline] _ rfl
        (Balanced.text "l" [] (Balanced.nil))
        (Balanced.newline [] (Balanced.nil))))

/-- C4: whenever interpretation reaches a command-close token whose name
differs from the innermost open tag (or arrives with no tag open at all),
the whole pass fails with the corresponding mismatched-close (resp.
unmatched-close) error carrying that token's data — regardless of whether
the closed name was opened deeper in the stack, and regardless of any
tokens that follow. -/
theorem spec_c4 (cmds : Registry) (mW : ITextStyle → Char → ℚ)
    (mH : ITextStyle → ℚ) (base : ITextStyle) (pre rest : List Token)
    (name : String) (pos : Nat) (s : InterpState)
    (hpre : runTokens cmds mW mH pre (initState mH base) = Except.ok s)
    (hcase : s.currentTag = none ∨
      ∃ t, s.currentTag = some t ∧ t.commandName ≠ name) :
    getRenderParts cmds mW mH (pre ++ Token.commandClose name pos :: rest) base =
      Except.error (closeError s name pos) := by
  simp only [getRenderParts, runTokens_append, hpre]
  rcases hcase with h | ⟨t, ht, hne⟩
  · simp [runTokens, interpStep, h, closeError, Except.bind, Except.map]
  · have hcond : ¬(name = t.commandName) := fun hh => hne hh.symm
    simp [runTokens, interpStep, ht, closeError, hcond, Except.bind, Except.map]

/-- Token prefix for the C4 witness: two nested opens, `a` then `b`. -/
def crossTokens : List Token :=
  [Token.command { commandName := "a", argument := "", pos := 0 },
   Token.command { commandName := "b", argument := "", pos := 3 }]

theorem spec_c4_witness :
    getRenderParts sampleCmds sampleMW sampleMH
        (crossTokens ++ Token.commandClose "a" 6 :: []) sampleStyle =
      Except.error (RenderError.mismatchedClose "a" 6 "b" 3) :=
  spec_c4 sampleCmds sampleMW sampleMH sampleStyle crossTokens [] "a" 6 _
    rfl (Or.inr ⟨{ commandName := "b", argument := "", pos := 3 }, rfl, by decide⟩)

/-- C5 counterexample: a token stream consisting of a single registered
open command reaches end of input with the tag still open, yet
interpretation succeeds with an (empty) render-item sequence instead of
failing. -/
theorem spec_c5_cex :
    getRenderParts sampleCmds sampleMW sampleMH
        [Token.command { commandName := "b", argument := "", pos := 0 }] sampleStyle =
      Except.ok [] := rfl

/-- C5 (amended): reaching the end of the token stream with command tags
still open raises no error — whenever the token loop runs to completion,
`getRenderParts` returns the accumulated render items even though the
final state still carries an open tag. -/
theorem spec_c5 (cmds : Registry) (mW : ITextStyle → Char → ℚ)
    (mH : ITextStyle → ℚ) (base : ITextStyle) (toks : List Token)
    (s : InterpState) (t : ICommandToken)
    (hrun : runTokens cmds mW mH toks (initState mH base) = Except.ok s)
    (hopen : s.currentTag = some t) :
    getRenderParts cmds mW mH toks base = Except.ok s.renderParts := by
  simp [getRenderParts, hrun, Except.map]

theorem spec_c5_witness :
    getRenderParts sampleCmds sampleMW sampleMH
        [Token.command { commandName := "b", argument := "", pos := 0 },
         Token.text "x"] sampleStyle =
      Except.ok [mkChar 'x' { sampleStyle with isBold := true, id := 1 } 7 20] :=
  spec_c5 sampleCmds sampleMW sampleMH sampleStyle
    [Token.command { commandName := "b", argument := "", pos := 0 },
     Token.text "x"] _ { commandName := "b", argument := "", pos := 0 } rfl rfl

/-- C10: interpretation restores styles by identity on tag close — after a
registered open, a balanced inner segment and the matching close, the
current style, current tag and both stacks are exactly the values from
before the open (the style being the very same instance, id included), and
characters emitted after the close carry literally the pre-open style. -/
theorem spec_c10 (cmds : Registry) (mW : ITextStyle → Char → ℚ)
    (mH : ITextStyle → ℚ) (tok : ICommandToken) (pos2 : Nat)
    (inner : List Token) (str : String) (rp : List RenderItem)
    (ss : List ITextStyle) (ts : List (Option ICommandToken))
    (cs : ITextStyle) (ct : Option ICommandToken) (ch : ℚ)
    (f : ITextStyle → String → ITextStyle)
    (hf : cmds tok.commandName = some f) (hb : Balanced cmds inner) :
    Option.map (fun s1 => (s1.currentStyle, s1.currentTag, s1.styleStack, s1.tagStack))
        (postState (runTokens cmds mW mH
          (Token.command tok ::
            (inner ++ [Token.commandClose tok.commandName pos2, Token.text str]))
          ⟨rp, ss, ts, cs, ct, ch⟩)) = some (cs, ct, ss, ts) ∧
    Option.map (fun s1 =>
        (s1.renderParts.drop (s1.renderParts.length - str.length)).map itemStyle)
        (postState (runTokens cmds mW mH
          (Token.command tok ::
            (inner ++ [Token.commandClose tok.commandName pos2, Token.text str]))
          ⟨rp, ss, ts, cs, ct, ch⟩)) = some (str.data.map (fun _ => some cs)) := by
  obtain ⟨items1, h1, heq1, _, _⟩ :=
    runTokens_balanced cmds mW mH inner hb rp (cs :: ss) (ct :: ts)
      (f cs tok.argument) (some tok) (mH (f cs tok.argument))
  have hrun : runTokens cmds mW mH
      (Token.command tok ::
        (inner ++ [Token.commandClose tok.commandName pos2, Token.text str]))
      ⟨rp, ss, ts, cs, ct, ch⟩ =
      Except.ok ⟨(rp ++ items1) ++ str.data.map (fun c => mkChar c cs (mW cs c) h1),
        ss, ts, cs, ct, h1⟩ := by
    simp only [runTokens, interpStep, hf]
    rw [runTokens_append, heq1]
    show runTokens cmds mW mH
      (Token.commandClose tok.commandName pos2 :: [Token.text str]) _ = _
    simp only [runTokens, interpStep]
    rw [if_pos trivial]
    rfl
  refine ⟨?_, ?_⟩
  · simp [hrun, postState]
  · simp only [hrun, postState, Option.map_some]
    refine congrArg some ?_
    show List.map itemStyle
        (List.drop
          ((rp ++ items1 ++ List.map (fun c => mkChar c cs (mW cs c) h1) str.data).length
            - str.length)
          (rp ++ items1 ++ List.map (fun c => mkChar c cs (mW cs c) h1) str.data)) =
      List.map (fun _ => some cs) str.data
    have hsl : str.length = str.data.length := rfl
    rw [List.length_append, List.length_map, hsl, Nat.add_sub_cancel,
      List.drop_left, List.map_map]
    rfl

/-- C10 witness: open `b`, one inner character, close, then two trailing
characters; the post-state style data equals the pre-open values and both
trailing items carry literally the base style. -/
theorem spec_c10_witness :
    Option.map (fun s1 => (s1.currentStyle, s1.currentTag, s1.styleStack, s1.tagStack))
        (postState (runTokens sampleCmds sampleMW sampleMH
          (Token.command { commandName := "b", argument := "", pos := 0 } ::
            ([Token.text "x"] ++
              [Token.commandClose "b" 4, Token.text "yz"]))
          ⟨[], [], [], sampleStyle, none, 24⟩)) =
      some (sampleStyle, none, [], []) ∧
    Option.map (fun s1 =>
        (s1.renderParts.drop (s1.renderParts.length - "yz".length)).map itemStyle)
        (postState (runTokens sampleCmds sampleMW sampleMH
          (Token.command { commandName := "b", argument := "", pos := 0 } ::
            ([Token.text "x"] ++
              [Token.commandClose "b" 4, Token.text "yz"]))
          ⟨[], [], [], sampleStyle, none, 24⟩)) =
      some [some sampleStyle, some sampleStyle] :=
  spec_c10 sampleCmds sampleMW sampleMH
    { commandName := "b", argument := "", pos := 0 } 4 [Token.text "x"] "yz"
    [] [] [] sampleStyle none 24 _ rfl
    (Balanced.text "x" [] Balanced.nil)

/-! ## Layout lemmas -/

theorem setX_map_y (x0 : ℚ) (l : List RenderItem) :
    (setX x0 l).map (fun p => p.y) = l.map (fun p => p.y) := by
  induction l generalizing x0 with
  | nil => rfl
  | cons p rest ih => simp [setX, ih]

theorem setX_map_width (x0 : ℚ) (l : List RenderItem) :
    (setX x0 l).map (fun p => p.width) = l.map (fun p => p.width) := by
  induction l generalizing x0 with
  | nil => rfl
  | cons p rest ih => simp [setX, ih]

theorem setX_map_x (x0 : ℚ) (l : List RenderItem) :
    (setX x0 l).map (fun p => p.x) = cursorXs x0 (l.map (fun p => p.width)) := by
  induction l generalizing x0 with
  | nil => rfl
  | cons p rest ih => simp [setX, cursorXs, ih]

theorem drop_headD_q (l : List ℚ) (n : Nat) :
    (l.drop n).headD 0 = l.getD n 0 := by
  induction l generalizing n with
  | nil => cases n <;> rfl
  | cons a l ih =>
    cases n with
    | zero => rfl
    | succ n => exact ih n

theorem drop_succ_tail_q (l : List ℚ) (n : Nat) :
    l.drop (n + 1) = (l.drop n).tail := by
  induction l generalizing n with
  | nil => cases n <;> rfl
  | cons a l ih =>
    cases n with
    | zero => rfl
    | succ n => exact ih n

theorem alignPass_map_width (a : Alignment) (xs xe : ℚ) (lineHeights : List ℚ) :
    ∀ (rest : List RenderItem) (y lw lh : ℚ) (cur : List RenderItem) (line : Nat),
      (alignPass a xs xe lineHeights rest y lw lh cur line).map (fun p => p.width) =
        cur.map (fun p => p.width) ++ rest.map adjWidth := by
  intro rest
  induction rest with
  | nil =>
    intro y lw lh cur line
    simp [alignPass, fixLine, setX_map_width]
  | cons p rest ih =>
    intro y lw lh cur line
    obtain ⟨px, py, ph, pw, pk⟩ := p
    cases pk with
    | newline =>
      simp only [alignPass, fixLine]
      rw [List.map_append, setX_map_width, ih]
      simp [adjWidth]
    | character c st =>
      simp only [alignPass]
      rw [ih]
      simp [adjWidth]

theorem alignPass_map_y (a : Alignment) (xs xe : ℚ) (lineHeights : List ℚ) :
    ∀ (rest : List RenderItem) (y lw lh : ℚ) (cur : List RenderItem) (line : Nat),
      (alignPass a xs xe lineHeights rest y lw lh cur line).map (fun p => p.y) =
        cur.map (fun p => p.y) ++
          ySpecFrom y (lineHeights.drop (line + 1)) rest := by
  intro rest
  induction rest with
  | nil =>
    intro y lw lh cur line
    simp [alignPass, fixLine, setX_map_y, ySpecFrom]
  | cons p rest ih =>
    intro y lw lh cur line
    obtain ⟨px, py, ph, pw, pk⟩ := p
    cases pk with
    | newline =>
      simp only [alignPass, fixLine]
      rw [List.map_append, setX_map_y, ih]
      simp only [ySpecFrom]
      rw [drop_headD_q, drop_succ_tail_q]
      simp
    | character c st =>
      simp only [alignPass]
      rw [ih]
      simp only [ySpecFrom]
      simp

theorem alignPass_x_single (a : Alignment) (xs xe : ℚ) (lineHeights : List ℚ) :
    ∀ (rest : List RenderItem) (y lw lh : ℚ) (cur : List RenderItem) (line : Nat),
      (∀ p ∈ rest, p.kind ≠ RenderKind.newline) →
      (∀ p ∈ rest, itemLS p = 0) →
      (alignPass a xs xe lineHeights rest y lw lh cur line).map (fun p => p.x) =
        cursorXs (startX a xs xe (lw + ((rest.map (fun p => p.width)).sum)))
          (cur.map (fun p => p.width) ++ rest.map (fun p => p.width)) := by
  intro rest
  induction rest with
  | nil =>
    intro y lw lh cur line hnl hls
    simp [alignPass, fixLine, setX_map_x]
  | cons p rest ih =>
    intro y lw lh cur line hnl hls
    obtain ⟨px, py, ph, pw, pk⟩ := p
    cases pk with
    | newline =>
      exact absurd rfl (hnl _ (List.mem_cons_self _ _))
    | character c st =>
      have hst : st.letterSpacing = 0 := hls _ (List.mem_cons_self _ _)
      simp only [alignPass]
      rw [ih _ _ _ _ _ (fun q hq => hnl q (List.mem_cons_of_mem _ hq))
        (fun q hq => hls q (List.mem_cons_of_mem _ hq))]
      rw [hst]
      have harg : lw + pw + 0 + (rest.map (fun p => p.width)).sum =
          lw + (pw + (rest.map (fun p => p.width)).sum) := by ring
      rw [harg]
      simp

/-- C2 counterexample: a single character of width 10 whose style has
letter-spacing 5 is the last (and only) item of its line, yet alignment
adds the spacing to its stored width (10 becomes 15), contradicting the
claim that the last item of a line receives no letter-spacing. -/
theorem spec_c2_cex :
    (fixAlignment Alignment.left 0 100 0 [mkChar 'a' lsStyle 10 20]).map
        (fun p => p.width) = [15] ∧ (15 : ℚ) ≠ 10 := by
  constructor
  · norm_num [fixAlignment, computeLineHeights, computeLHAux, alignPass,
      fixLine, startX, setX, mkChar, lsStyle, sampleStyle]
  · norm_num

/-- C2 (amended): during alignment each character item's own
letter-spacing is added to the running line width and to that same item's
stored width — including when the character is the last item of its line
(the code reads the just-pushed item, not the previous one). Newline
widths are unchanged; e.g. a lone right-aligned character of width w ends
at x = xEnd - (w + letterSpacing). -/
theorem spec_c2 (a : Alignment) (xs xe ys : ℚ) (parts : List RenderItem)
    (c : Char) (st : ITextStyle) (w h : ℚ) :
    (fixAlignment a xs xe ys parts).map (fun p => p.width) = parts.map adjWidth ∧
    (fixAlignment Alignment.right xs xe ys [mkChar c st w h]).map (fun p => p.x) =
      [xe - (w + st.letterSpacing)] := by
  constructor
  · simpa using alignPass_map_width a xs xe (computeLineHeights parts) parts ys 0 0 [] 0
  · simp only [fixAlignment, computeLineHeights, computeLHAux, mkChar, alignPass,
      fixLine, startX, setX]
    simp only [List.map_cons, List.map_nil]
    congr 1
    ring

/-- C7: on a single line (no newline items) whose character styles all
have zero letter-spacing, alignment assigns x as a running cursor from the
mode's start position (xStart for left, centred for center, right-flush
for right), each item advancing the cursor by its width; in particular
widths [10,10,10] left-aligned from 0 give [0,10,20], right-aligned in
[0,100] give [70,80,90], and widths [10,10] centered in [0,100] give
[40,50]. -/
theorem spec_c7 (a : Alignment) (xs xe ys : ℚ) (parts : List RenderItem)
    (hnl : ∀ p ∈ parts, p.kind ≠ RenderKind.newline)
    (hls : ∀ p ∈ parts, itemLS p = 0) :
    (fixAlignment a xs xe ys parts).map (fun p => p.x) =
      cursorXs (startX a xs xe ((parts.map (fun p => p.width)).sum))
        (parts.map (fun p => p.width)) ∧
    (fixAlignment Alignment.left 0 100 0 c7parts).map (fun p => p.x) =
      [0, 10, 20] ∧
    (fixAlignment Alignment.right 0 100 0 c7parts).map (fun p => p.x) =
      [70, 80, 90] ∧
    (fixAlignment Alignment.center 0 100 0 (c7parts.take 2)).map (fun p => p.x) =
      [40, 50] := by
  refine ⟨?_,
    by norm_num [fixAlignment, computeLineHeights, computeLHAux, alignPass,
      fixLine, startX, setX, mkChar, c7parts, sampleStyle],
    by norm_num [fixAlignment, computeLineHeights, computeLHAux, alignPass,
      fixLine, startX, setX, mkChar, c7parts, sampleStyle],
    by norm_num [fixAlignment, computeLineHeights, computeLHAux, alignPass,
      fixLine, startX, setX, mkChar, c7parts, sampleStyle]⟩
  have h := alignPass_x_single a xs xe (computeLineHeights parts) parts ys 0 0 [] 0 hnl hls
  simpa using h

theorem spec_c7_witness :
    (∀ p ∈ c7parts, p.kind ≠ RenderKind.newline) ∧
    (∀ p ∈ c7parts, itemLS p = 0) ∧
    (fixAlignment Alignment.left 0 100 0 c7parts).map (fun p => p.x) =
      cursorXs (startX Alignment.left 0 100 ((c7parts.map (fun p => p.width)).sum))
        (c7parts.map (fun p => p.width)) :=
  ⟨by simp [c7parts, mkChar], by simp [c7parts, itemLS, mkChar, sampleStyle],
    (spec_c7 Alignment.left 0 100 0 c7parts (by simp [c7parts, mkChar])
      (by simp [c7parts, itemLS, mkChar, sampleStyle])).1⟩

theorem splitLines_ne_nil (parts : List RenderItem) : splitLines parts ≠ [] := by
  cases parts with
  | nil => simp [splitLines]
  | cons p rest =>
    obtain ⟨px, py, ph, pw, pk⟩ := p
    cases pk with
    | newline => simp [splitLines]
    | character c st =>
      simp only [splitLines]
      cases splitLines rest <;> simp

theorem ySpecFrom_splitLines (parts : List RenderItem) :
    ∀ (y : ℚ) (hs : List ℚ),
      ySpecFrom y hs parts = ySpecLines y hs (splitLines parts) := by
  induction parts with
  | nil => intro y hs; simp [ySpecFrom, splitLines, ySpecLines]
  | cons p rest ih =>
    intro y hs
    obtain ⟨px, py, ph, pw, pk⟩ := p
    cases pk with
    | newline =>
      simp only [ySpecFrom, splitLines, ySpecLines]
      rw [ih]
      simp
    | character c st =>
      simp only [ySpecFrom, splitLines]
      cases hsp : splitLines rest with
      | nil => exact absurd hsp (splitLines_ne_nil rest)
      | cons l ls =>
        simp only [ySpecLines, List.map_cons]
        rw [ih, hsp]
        simp [ySpecLines]

theorem ySpecLines_zip (ls : List (List RenderItem)) :
    ∀ (y : ℚ) (hs : List ℚ), hs.length + 1 = ls.length →
      ySpecLines y hs ls =
        (ls.zip (cumYs y hs)).flatMap (fun pr => pr.1.map (fun _ => pr.2)) := by
  induction ls with
  | nil => intro y hs hlen; exact absurd hlen (by simp)
  | cons l ls ih =>
    intro y hs hlen
    cases hs with
    | nil =>
      have hnil : ls = [] := by
        have : ls.length = 0 := by simpa using hlen.symm
        exact List.length_eq_zero.mp this
      subst hnil
      simp [ySpecLines, cumYs]
    | cons h t =>
      have hlen2 : t.length + 1 = ls.length := by simpa using hlen
      simp only [ySpecLines, cumYs, List.zip_cons_cons, List.flatMap_cons,
        List.headD_cons, List.tail_cons]
      rw [ih (y + h) t hlen2]

theorem computeLHAux_splitLines (parts : List RenderItem) :
    ∀ m : ℚ, computeLHAux m parts = sLH m (splitLines parts) := by
  induction parts with
  | nil => intro m; simp [computeLHAux, splitLines, sLH]
  | cons p rest ih =>
    intro m
    obtain ⟨px, py, ph, pw, pk⟩ := p
    cases pk with
    | newline =>
      simp only [computeLHAux, splitLines, sLH]
      rw [ih]
      simp [sLH]
    | character c st =>
      simp only [computeLHAux, splitLines]
      cases hsp : splitLines rest with
      | nil => exact absurd hsp (splitLines_ne_nil rest)
      | cons l ls =>
        rw [ih, hsp]
        simp [sLH, List.foldl_cons]

theorem sLH_length (ls : List (List RenderItem)) :
    ∀ m : ℚ, (sLH m ls).length = ls.length := by
  induction ls with
  | nil => intro m; rfl
  | cons l ls ih => intro m; simp [sLH, ih]

theorem sLH_prefix (ls : List (List RenderItem)) :
    ∀ m : ℚ, sLH m ls =
      (List.range ls.length).map
        (fun k => ((ls.take (k + 1)).flatten).foldl (fun a p => max a p.height) m) := by
  induction ls with
  | nil => intro m; rfl
  | cons l ls ih =>
    intro m
    simp only [sLH, List.length_cons, List.range_succ_eq_map, List.map_cons,
      List.map_map]
    rw [List.cons_eq_cons]
    constructor
    · simp
    · rw [ih (l.foldl (fun a p => max a p.height) m)]
      refine List.map_congr_left ?_
      intro k _
      simp [List.take_succ_cons, List.flatten_cons, List.foldl_append,
        Function.comp]

/-- C3 counterexample: a line of height 10 followed by a line containing a
character of height 30; the claim predicts the second line sits at
y = yStart + 10 (the height of the line before it), but alignment puts it
at y = 30. -/
theorem spec_c3_cex :
    (fixAlignment Alignment.left 0 100 0 c3parts).map (fun p => p.y) =
      [0, 0, 30] ∧ (30 : ℚ) ≠ 10 := by
  constructor
  · norm_num [fixAlignment, computeLineHeights, computeLHAux, alignPass,
      fixLine, startX, setX, mkChar, mkNl, c3parts, sampleStyle]
  · norm_num

/-- C3 (amended): after fixAlignment, the items of line k all have
y = yStart plus the sum, over lines 1..k, of the recorded heights H_j,
where H_j is the maximum item height over ALL items of lines 0..j (a
running prefix maximum including each line-terminating newline, never
reset between lines) — i.e. y advances at each newline by the NEXT line's
recorded prefix-maximum height, not by the completed line's own maximum;
an empty line still contributes its recorded height. -/
theorem spec_c3 (a : Alignment) (xs xe ys : ℚ) (parts : List RenderItem) :
    (fixAlignment a xs xe ys parts).map (fun p => p.y) = specYList ys parts := by
  have h := alignPass_map_y a xs xe (computeLineHeights parts) parts ys 0 0 [] 0
  simp only [fixAlignment]
  rw [h]
  simp only [List.map_nil, List.nil_append]
  rw [ySpecFrom_splitLines]
  have hlh : computeLineHeights parts = prefixLineHeights parts := by
    show computeLHAux 0 parts = prefixLineHeights parts
    rw [computeLHAux_splitLines parts 0, sLH_prefix]
    rfl
  have hlen : ((prefixLineHeights parts).drop 1).length + 1 =
      (splitLines parts).length := by
    have h1 : (prefixLineHeights parts).length = (splitLines parts).length := by
      simp [prefixLineHeights]
    have h2 : 0 < (splitLines parts).length :=
      List.length_pos.mpr (splitLines_ne_nil parts)
    simp only [List.length_drop, h1]
    omega
  rw [hlh, ySpecLines_zip (splitLines parts) ys ((prefixLineHeights parts).drop 1) hlen]
  rfl

/-! ## Metrics cache: C8 -/

/-- C8: the height cache is keyed only by the font-size/font-family
descriptor; on a cache hit measureHeight performs no measurement (the
primitive is not invoked, the cache is unchanged) and returns the cached
base height times the style's line-spacing; and any style agreeing on
fontSize and fontName — whatever its lineSpacing, bold, italic or stroke —
has the same descriptor, hence shares the entry. -/
theorem spec_c8 (primitive : ℚ → String → ℚ) (cache : List (String × ℚ))
    (st st2 : ITextStyle) (b : ℚ)
    (hhit : cache.lookup (fontKey st) = some b)
    (hsize : st2.fontSize = st.fontSize) (hname : st2.fontName = st.fontName) :
    measureHeightC primitive cache st = (b * st.lineSpacing, cache, false) ∧
    fontKey st2 = fontKey st := by
  constructor
  · simp [measureHeightC, hhit]
  · simp [fontKey, hsize, hname]

theorem spec_c8_witness :
    measureHeightC (fun _ _ => 0) [(fontKey sampleStyle, 16)] sampleStyle =
      (16 * sampleStyle.lineSpacing, [(fontKey sampleStyle, 16)], false) ∧
    fontKey c8OtherStyle = fontKey sampleStyle :=
  spec_c8 (fun _ _ => 0) [(fontKey sampleStyle, 16)] sampleStyle
    c8OtherStyle 16 (by simp [List.lookup]) rfl rfl

/-! ## Renderer: C9 -/

theorem strokePass_calls (parts : List RenderItem) :
    ∀ cur : Option ITextStyle,
      ((strokePass cur parts).1.filterMap strokeOf = strokeCharsOf parts) ∧
      ((strokePass cur parts).1.filterMap fillOf = []) := by
  induction parts with
  | nil => intro cur; exact ⟨rfl, rfl⟩
  | cons p rest ih =>
    intro cur
    obtain ⟨px, py, ph, pw, pk⟩ := p
    cases pk with
    | newline =>
      simpa [strokePass, strokeCharsOf] using ih cur
    | character c st =>
      obtain ⟨ih1, ih2⟩ := ih (some st)
      simp only [strokePass, List.filterMap_append, ih1, ih2, List.append_nil]
      constructor
      · by_cases hcur : some st = cur
        · by_cases hel : strokeEligible st = true
          · rw [if_pos hcur, if_pos hel]
            simp [strokeOf, strokeCharsOf, hel]
          · rw [if_pos hcur, if_neg hel]
            simp [strokeOf, strokeCharsOf, hel]
        · by_cases hel : strokeEligible st = true
          · rw [if_neg hcur, if_pos hel]
            simp [strokeOf, strokeCharsOf, hel]
          · rw [if_neg hcur, if_neg hel]
            simp [strokeOf, strokeCharsOf, hel]
      · by_cases hcur : some st = cur
        · by_cases hel : strokeEligible st = true
          · rw [if_pos hcur, if_pos hel]
            simp [fillOf]
          · rw [if_pos hcur, if_neg hel]
            simp [fillOf]
        · by_cases hel : strokeEligible st = true
          · rw [if_neg hcur, if_pos hel]
            simp [fillOf]
          · rw [if_neg hcur, if_neg hel]
            simp [fillOf]

theorem fillPass_calls (parts : List RenderItem) :
    ∀ cur : Option ITextStyle,
      ((fillPass cur parts).1.filterMap fillOf = charsOf parts) ∧
      ((fillPass cur parts).1.filterMap strokeOf = []) := by
  induction parts with
  | nil => intro cur; exact ⟨rfl, rfl⟩
  | cons p rest ih =>
    intro cur
    obtain ⟨px, py, ph, pw, pk⟩ := p
    cases pk with
    | newline =>
      simpa [fillPass, charsOf] using ih cur
    | character c st =>
      obtain ⟨ih1, ih2⟩ := ih (some st)
      simp only [fillPass, List.filterMap_append, List.filterMap_cons, ih1, ih2]
      constructor
      · by_cases hcur : some st = cur
        · rw [if_pos hcur]
          simp [fillOf, charsOf]
        · rw [if_neg hcur]
          simp [fillOf, charsOf]
      · by_cases hcur : some st = cur
        · rw [if_pos hcur]
          simp [strokeOf]
        · rw [if_neg hcur]
          simp [strokeOf]

/-- C9: in render, no stroke call ever follows a fill call (every stroke
index precedes every fill index), the fill calls are exactly one per
character item in order (newlines produce none), and the stroke calls are
exactly one per character item whose style has positive stroke width and a
non-empty stroke color. -/
theorem spec_c9 (parts : List RenderItem) (i j : Nat) (sc fc : Char)
    (sx sy fx fy : ℚ)
    (hi : (render parts).get? i = some (DrawCall.strokeText sc sx sy))
    (hj : (render parts).get? j = some (DrawCall.fillText fc fx fy)) :
    i < j ∧
    (render parts).filterMap fillOf = charsOf parts ∧
    (render parts).filterMap strokeOf = strokeCharsOf parts := by
  have hs := strokePass_calls parts none
  have hf := fillPass_calls parts (strokePass none parts).2
  have hrender : render parts =
      (strokePass none parts).1 ++ (fillPass (strokePass none parts).2 parts).1 := rfl
  refine ⟨?_, ?_, ?_⟩
  · have hilt : i < (strokePass none parts).1.length := by
      by_contra hge
      push_neg at hge
      rw [hrender, List.get?_append_right hge] at hi
      have hmem : DrawCall.strokeText sc sx sy ∈
          (fillPass (strokePass none parts).2 parts).1 := List.get?_mem hi
      have : strokeOf (DrawCall.strokeText sc sx sy) = none :=
        (List.filterMap_eq_nil.mp hf.2) _ hmem
      simp [strokeOf] at this
    have hjge : (strokePass none parts).1.length ≤ j := by
      by_contra hlt
      push_neg at hlt
      rw [hrender, List.get?_append hlt] at hj
      have hmem : DrawCall.fillText fc fx fy ∈ (strokePass none parts).1 :=
        List.get?_mem hj
      have : fillOf (DrawCall.fillText fc fx fy) = none :=
        (List.filterMap_eq_nil.mp hs.2) _ hmem
      simp [fillOf] at this
    exact Nat.lt_of_lt_of_le hilt hjge
  · rw [hrender, List.filterMap_append, hs.2, hf.1, List.nil_append]
  · rw [hrender, List.filterMap_append, hs.1, hf.2, List.append_nil]

theorem spec_c9_witness :
    (1 : Nat) < 2 ∧
    (render [mkChar 'a' sampleStyle 10 20]).filterMap fillOf =
      charsOf [mkChar 'a' sampleStyle 10 20] ∧
    (render [mkChar 'a' sampleStyle 10 20]).filterMap strokeOf =
      strokeCharsOf [mkChar 'a' sampleStyle 10 20] :=
  spec_c9 [mkChar 'a' sampleStyle 10 20] 1 2 'a' 'a' 0 0 0 0
    (by
      norm_num [render, strokePass, fillPass, strokeEligible, mkChar,
        sampleStyle]
      rw [if_neg (Option.some_ne_none _), if_neg (by decide : ¬("#523140" = ""))]
      norm_num)
    (by
      norm_num [render, strokePass, fillPass, strokeEligible, mkChar,
        sampleStyle]
      rw [if_neg (Option.some_ne_none _), if_neg (by decide : ¬("#523140" = ""))]
      norm_num)

/-! ## Quote operation: C6 -/

theorem get_append_len (as : List RenderItem) (b : RenderItem) (bs : List RenderItem) :
    (as ++ b :: bs).get? as.length = some b := by
  induction as with
  | nil => rfl
  | cons a as ih => simpa using ih

theorem take_append_len (as bs : List RenderItem) :
    (as ++ bs).take as.length = as := by
  induction as with
  | nil => rfl
  | cons a as ih => simp [ih]

theorem take_append_len_succ (as : List RenderItem) (b : RenderItem)
    (bs : List RenderItem) :
    (as ++ b :: bs).take (as.length + 1) = as ++ [b] := by
  induction as with
  | nil => rfl
  | cons a as ih => simp [ih]

theorem drop_append_len_succ (as : List RenderItem) (b : RenderItem)
    (bs : List RenderItem) :
    (as ++ b :: bs).drop (as.length + 1) = bs := by
  induction as with
  | nil => rfl
  | cons a as ih => simpa using ih

theorem spliceInsert_append (as : List RenderItem) (b x : RenderItem)
    (bs : List RenderItem) :
    spliceInsert (as.length + 1) x (as ++ b :: bs) = as ++ b :: x :: bs := by
  induction as with
  | nil => rfl
  | cons a as ih => simp [spliceInsert, ih]

theorem firstVisibleIdx_none (parts : List RenderItem) :
    firstVisibleIdx parts = none → ∀ p ∈ parts, isVisible p = false := by
  induction parts with
  | nil => intro _ p hp; cases hp
  | cons a l ih =>
    intro h p hp
    by_cases hv : isVisible a = true
    · simp [firstVisibleIdx, hv] at h
    · have hva : isVisible a = false := by
        revert hv; cases isVisible a <;> simp
      rcases List.mem_cons.mp hp with rfl | hm
      · exact hva
      · refine ih ?_ p hm
        simp only [firstVisibleIdx, if_neg hv, Option.map_eq_none'] at h
        exact h

theorem lastVisibleIdx_none (l : List RenderItem) :
    lastVisibleIdx l = none → ∀ p ∈ l, isVisible p = false := by
  induction l with
  | nil => intro _ p hp; cases hp
  | cons a l ih =>
    intro h p hp
    cases hfl : lastVisibleIdx l with
    | some k => simp [lastVisibleIdx, hfl] at h
    | none =>
      simp only [lastVisibleIdx, hfl] at h
      by_cases hv : isVisible a = true
      · rw [if_pos hv] at h; cases h
      · have hva : isVisible a = false := by
          revert hv; cases isVisible a <;> simp
        rcases List.mem_cons.mp hp with rfl | hm
        · exact hva
        · exact ih hfl p hm

theorem firstVisibleIdx_some (parts : List RenderItem) :
    ∀ i, firstVisibleIdx parts = some i →
      ∃ w P r2, parts = w ++ P :: r2 ∧ w.length = i ∧
        (∀ p ∈ w, isVisible p = false) ∧ isVisible P = true := by
  induction parts with
  | nil => intro i h; cases h
  | cons a l ih =>
    intro i h
    by_cases hv : isVisible a = true
    · simp only [firstVisibleIdx, if_pos hv, Option.some.injEq] at h
      exact ⟨[], a, l, rfl, by simpa using h,
        fun p hp => absurd hp (List.not_mem_nil p), hv⟩
    · simp only [firstVisibleIdx, if_neg hv] at h
      cases hfl : firstVisibleIdx l with
      | none => rw [hfl] at h; cases h
      | some k =>
        rw [hfl] at h
        replace h : k + 1 = i := by simpa using h
        obtain ⟨w, P, r2, hparts, hlen, hw, hP⟩ := ih k hfl
        have hva : isVisible a = false := by
          revert hv; cases isVisible a <;> simp
        refine ⟨a :: w, P, r2, by simp [hparts],
          by simp only [List.length_cons, hlen]; omega, ?_, hP⟩
        intro p hp
        rcases List.mem_cons.mp hp with rfl | hm
        · exact hva
        · exact hw p hm

theorem lastVisibleIdx_some (xs : List RenderItem) :
    ∀ m, lastVisibleIdx xs = some m →
      ∃ mid Q tws, xs = mid ++ Q :: tws ∧ mid.length = m ∧
        isVisible Q = true ∧ ∀ p ∈ tws, isVisible p = false := by
  induction xs with
  | nil => intro m h; cases h
  | cons a l ih =>
    intro m h
    cases hfl : lastVisibleIdx l with
    | some k =>
      simp only [lastVisibleIdx, hfl, Option.some.injEq] at h
      obtain ⟨mid, Q, tws, hxs, hlen, hQ, htws⟩ := ih k hfl
      refine ⟨a :: mid, Q, tws, by simp [hxs],
        by simp only [List.length_cons, hlen]; omega, hQ, htws⟩
    | none =>
      simp only [lastVisibleIdx, hfl] at h
      by_cases hv : isVisible a = true
      · rw [if_pos hv] at h
        simp only [Option.some.injEq] at h
        refine ⟨[], a, l, rfl, by simpa using h, hv, lastVisibleIdx_none l hfl⟩
      · rw [if_neg hv] at h; cases h

theorem lastVisibleIdx_cons_isSome (P : RenderItem) (r2 : List RenderItem)
    (hP : isVisible P = true) : ∃ m, lastVisibleIdx (P :: r2) = some m := by
  cases hfl : lastVisibleIdx r2 with
  | some k => exact ⟨k + 1, by simp [lastVisibleIdx, hfl]⟩
  | none => exact ⟨0, by simp [lastVisibleIdx, hfl, hP]⟩

theorem lastVisibleIdx_append (w xs : List RenderItem) (m : Nat)
    (h : lastVisibleIdx xs = some m) :
    lastVisibleIdx (w ++ xs) = some (w.length + m) := by
  induction w with
  | nil => simpa using h
  | cons a w ih =>
    simp only [List.cons_append, lastVisibleIdx, List.append_eq, ih,
      List.length_cons, Option.some.injEq]
    omega

theorem quoteLoop_skip (mW : ITextStyle → Char → ℚ) :
    ∀ (w : List RenderItem), (∀ p ∈ w, isVisible p = false) →
      ∀ (acc rest : List RenderItem) (lastChar : Int) (quoted : Bool),
        quoteLoop mW acc (w ++ rest) lastChar quoted =
          quoteLoop mW (acc ++ w) rest lastChar quoted := by
  intro w
  induction w with
  | nil => intro _ acc rest l q; simp
  | cons p w ih =>
    intro hw acc rest l q
    have hp : isVisible p = false := hw p (List.mem_cons_self _ _)
    have hrec := ih (fun r hr => hw r (List.mem_cons_of_mem _ hr))
    obtain ⟨px, py, ph, pw, pk⟩ := p
    cases pk with
    | newline =>
      rw [List.cons_append]
      rw [quoteLoop]
      rw [hrec]
      simp
    | character c st =>
      have hws : isJsWhitespace c = true := by
        simpa [isVisible] using hp
      rw [List.cons_append]
      rw [quoteLoop]
      simp only [hws, if_pos]
      rw [hrec]
      simp

theorem quoteLoop_quoted (mW : ITextStyle → Char → ℚ) :
    ∀ (rest acc : List RenderItem) (l : Int),
      quoteLoop mW acc rest l true =
        (acc ++ rest, lastSpec acc.length l rest, true) := by
  intro rest
  induction rest with
  | nil =>
    intro acc l
    rw [quoteLoop]
    simp [lastSpec, lastVisibleIdx]
  | cons p rs ih =>
    intro acc l
    obtain ⟨px, py, ph, pw, pk⟩ := p
    cases pk with
    | newline =>
      rw [quoteLoop]
      rw [ih]
      cases hrs : lastVisibleIdx rs with
      | some k =>
        simp [lastSpec, lastVisibleIdx, hrs, isVisible, List.append_assoc]
        omega
      | none =>
        simp [lastSpec, lastVisibleIdx, hrs, isVisible, List.append_assoc]
    | character c st =>
      by_cases hws : isJsWhitespace c = true
      · rw [quoteLoop]
        dsimp only
        rw [if_pos hws]
        rw [ih]
        cases hrs : lastVisibleIdx rs with
        | some k =>
          simp [lastSpec, lastVisibleIdx, hrs, isVisible, hws,
            List.append_assoc]
          omega
        | none =>
          simp [lastSpec, lastVisibleIdx, hrs, isVisible, hws,
            List.append_assoc]
      · rw [quoteLoop]
        dsimp only
        rw [if_neg hws, if_pos rfl]
        rw [ih]
        cases hrs : lastVisibleIdx rs with
        | some k =>
          simp [lastSpec, lastVisibleIdx, hrs, isVisible, hws,
            List.append_assoc]
          omega
        | none =>
          simp [lastSpec, lastVisibleIdx, hrs, isVisible, hws,
            List.append_assoc]

/-- C6: quote leaves a sequence with no non-whitespace character items
unchanged; otherwise it inserts exactly two quotation-mark items — one
immediately before the first non-whitespace character and one immediately
after the last non-whitespace character, each carrying the style and
height of that neighbouring character and a freshly measured width — so
the item count grows by exactly 2 (and is unchanged in the no-op case). -/
theorem spec_c6 (mW : ITextStyle → Char → ℚ) (parts : List RenderItem) :
    quote mW parts = quoteSpec mW parts ∧
    (quote mW parts).length =
      parts.length + (if parts.any (fun p => isVisible p) then 2 else 0) := by
  cases hfv : firstVisibleIdx parts with
  | none =>
    have hall := firstVisibleIdx_none parts hfv
    have hloop : quoteLoop mW [] parts (-1) false = (parts, -1, false) := by
      have h1 := quoteLoop_skip mW parts hall [] [] (-1) false
      simp only [List.append_nil, List.nil_append] at h1
      rw [quoteLoop] at h1
      exact h1
    have hone : quote mW parts = parts := by
      simp [quote, hloop]
    have hany : parts.any (fun p => isVisible p) = false := by
      simp only [List.any_eq_false]
      intro p hp
      simp [hall p hp]
    refine ⟨?_, ?_⟩
    · rw [hone]
      simp [quoteSpec, hfv]
    · rw [hone, hany]
      simp
  | some i =>
    obtain ⟨w, P, r2, hparts, hwlen, hw, hP⟩ := firstVisibleIdx_some parts i hfv
    obtain ⟨m, hm⟩ := lastVisibleIdx_cons_isSome P r2 hP
    obtain ⟨mid, Q, tws, hsplit, hmidlen, hQ, htws⟩ :=
      lastVisibleIdx_some (P :: r2) m hm
    obtain ⟨Px, Py, Ph, Pw, Pk⟩ := P
    cases Pk with
    | newline => simp [isVisible] at hP
    | character cP stP =>
      have hws : isJsWhitespace cP = false := by
        simpa [isVisible] using hP
      have hloop2 : quoteLoop mW [] parts (-1) false =
          (w ++ mkQuoteItem mW stP Ph ::
              ({ x := Px, y := Py, height := Ph, width := Pw,
                 kind := RenderKind.character cP stP } : RenderItem) :: r2,
            ((w.length + 1 + m : Nat) : Int), true) := by
        rw [hparts]
        have h1 := quoteLoop_skip mW w hw []
          (({ x := Px, y := Py, height := Ph, width := Pw,
              kind := RenderKind.character cP stP } : RenderItem) :: r2) (-1) false
        simp only [List.nil_append] at h1
        rw [h1]
        rw [quoteLoop]
        dsimp only
        rw [if_neg (by simp [hws])]
        rw [if_neg (by simp)]
        rw [quoteLoop_quoted]
        simp [lastSpec, hm]
      have hps : w ++ mkQuoteItem mW stP Ph ::
          ({ x := Px, y := Py, height := Ph, width := Pw,
             kind := RenderKind.character cP stP } : RenderItem) :: r2 =
          (w ++ mkQuoteItem mW stP Ph :: mid) ++ Q :: tws := by
        rw [hsplit]
        simp
      have hlen2 : (w ++ mkQuoteItem mW stP Ph :: mid).length = w.length + 1 + m := by
        simp [hmidlen]
        omega
      have hget : ((w ++ mkQuoteItem mW stP Ph :: mid) ++ Q :: tws).get?
          (w.length + 1 + m) = some Q := by
        rw [← hlen2]
        exact get_append_len _ _ _
      have hsplice : spliceInsert (w.length + 1 + m + 1)
          (mkQuoteItem mW (styleOfItem defaultStyle Q) Q.height)
          ((w ++ mkQuoteItem mW stP Ph :: mid) ++ Q :: tws) =
          (w ++ mkQuoteItem mW stP Ph :: mid) ++ Q ::
            mkQuoteItem mW (styleOfItem defaultStyle Q) Q.height :: tws := by
        rw [← hlen2]
        exact spliceInsert_append _ _ _ _
      have hquote : quote mW parts =
          (w ++ mkQuoteItem mW stP Ph :: mid) ++ Q ::
            mkQuoteItem mW (styleOfItem defaultStyle Q) Q.height :: tws := by
        simp only [quote, hloop2]
        rw [if_pos (show ((true &&
            decide ((0 : Int) ≤ ((w.length + 1 + m : Nat) : Int))) = true) by
          simp only [Bool.true_and, decide_eq_true_eq]
          omega)]
        rw [show (((w.length + 1 + m : Nat) : Int)).toNat = w.length + 1 + m from
          by omega]
        rw [hps]
        rw [hget]
        dsimp only
        rw [hsplice]
      have hlv : lastVisibleIdx parts = some (i + m) := by
        rw [hparts]
        have h2 := lastVisibleIdx_append w
          (({ x := Px, y := Py, height := Ph, width := Pw,
              kind := RenderKind.character cP stP } : RenderItem) :: r2) m hm
        rwa [hwlen] at h2
      have htake1 : parts.take i = w := by
        rw [hparts, ← hwlen]
        exact take_append_len _ _
      have hdrop1 : parts.drop i =
          ({ x := Px, y := Py, height := Ph, width := Pw,
             kind := RenderKind.character cP stP } : RenderItem) :: r2 := by
        rw [hparts, ← hwlen]
        exact List.drop_left _ _
      have hgeti : parts.get? i = some
          ({ x := Px, y := Py, height := Ph, width := Pw,
             kind := RenderKind.character cP stP } : RenderItem) := by
        rw [hparts, ← hwlen]
        exact get_append_len _ _ _
      have hidx : i + m + 1 - i = m + 1 := by omega
      have htake2 : (parts.drop i).take (m + 1) = mid ++ [Q] := by
        rw [hdrop1, hsplit, ← hmidlen]
        exact take_append_len_succ _ _ _
      have hpartsQ : parts = (w ++ mid) ++ Q :: tws := by
        rw [hparts, hsplit]
        simp
      have hgetj : parts.get? (i + m) = some Q := by
        rw [hpartsQ, show i + m = (w ++ mid).length by simp [hwlen, hmidlen]]
        exact get_append_len _ _ _
      have hdropj : parts.drop (i + m + 1) = tws := by
        rw [hpartsQ, show i + m + 1 = (w ++ mid).length + 1 by
          simp [hwlen, hmidlen]]
        exact drop_append_len_succ _ _ _
      have hspec : quoteSpec mW parts =
          w ++ mkQuoteItem mW stP Ph :: ((mid ++ [Q]) ++
            mkQuoteItem mW (styleOfItem defaultStyle Q) Q.height :: tws) := by
        simp only [quoteSpec, hfv, hlv, hgeti, hgetj, Option.getD_some, hidx,
          htake1, htake2, hdropj]
        simp [styleOfItem, List.append_assoc]
      have hany : parts.any (fun p => isVisible p) = true := by
        rw [hparts, List.any_eq_true]
        exact ⟨_, List.mem_append_right _ (List.mem_cons_self _ _), hP⟩
      refine ⟨?_, ?_⟩
      · rw [hquote, hspec]
        simp [List.append_assoc]
      · rw [hquote, hany]
        rw [show parts.length = (w ++ mid).length + (Q :: tws).length from by
          rw [hpartsQ]
          simp only [List.length_append, List.length_cons]]
        simp
        omega

end DDDG
